import Mathlib

/-!
Verification of `scripts/replace_emoji.py`: a utility that replaces emoji
and pictographic symbols in text files with ASCII tokens, removes the
variation selector U+FE0F, and walks a directory tree rewriting eligible
text files in place.

The Python source is shallowly embedded below.  Strings are modelled as
`String`/`List Char`, Python `dict` literals as an ordered association
list built with last-write-wins insertion, `str.replace` as a left-to-right
non-overlapping replacement, and the filesystem seen by the walker as an
explicit list of files with their raw bytes and (optional) strict-UTF-8
decoding.  The Unicode name database consulted by `unicodedata.name` is
outside the repository, so the transformer is parameterised by a name
lookup `uname : Char -> Option String`; a small concrete instance `udName`
records the database entries used by concrete examples.
-/

namespace ReplaceEmoji

/-- `startsWithList pat s` is true when `pat` is an initial segment of `s`
(the test Python's `str.replace` performs at each scan position). -/
def startsWithList : List Char → List Char → Bool
  | [], _ => true
  | _ :: _, [] => false
  | p :: ps, c :: cs => p == c && startsWithList ps cs

/-- One definition of Python `str.replace`: scan left to right, replacing
non-overlapping occurrences of `pat` by `rep`.  Fuel-driven recursion; the
fuel is instantiated with the length of the string, which suffices for the
nonempty patterns occurring in this program (no key of the table below is
empty, so Python's special empty-pattern behaviour is never exercised). -/
def replaceFuel : Nat → List Char → List Char → List Char → List Char
  | 0, s, _, _ => s
  | _ + 1, [], _, _ => []
  | n + 1, c :: cs, pat, rep =>
    if startsWithList pat (c :: cs) then
      rep ++ replaceFuel n ((c :: cs).drop pat.length) pat rep
    else
      c :: replaceFuel n cs pat rep

/-- Python `s.replace(pat, rep)` on character lists. -/
def pyReplace (s pat rep : List Char) : List Char :=
  replaceFuel s.length s pat rep

/-- Python `pat in s` (substring containment). -/
def containsSub (s pat : List Char) : Bool :=
  match s with
  | [] => startsWithList pat []
  | _ :: cs => startsWithList pat s || containsSub cs pat

/-- The key/value pairs of the `MAP` dict literal, in source order,
duplicates included (lines 35-194 of `replace_emoji.py`). -/
def MAP_entries : List (String × String) := [
  ("[OK]", "[OK]"), ("[X]", "[X]"), ("[WARN]", "[WARN]"),
  ("[LAUNCH]", "[LAUNCH]"), ("[DONE]", "[DONE]"), ("[LIST]", "[LIST]"),
  ("[TOOL]", "[TOOL]"), ("[INFO]", "[INFO]"), ("[WEB]", "[WEB]"),
  ("[GOAL]", "[GOAL]"), ("[BUILD]", "[BUILD]"), ("[PC]", "[PC]"),
  ("[DESIGN]", "[DESIGN]"), ("[OFFICE]", "[OFFICE]"), ("[$]", "[$]"),
  ("[TAKE]", "[TAKE]"), ("[TEST]", "[TEST]"), ("[GAME]", "[GAME]"),
  ("[DOCS]", "[DOCS]"), ("[FIRE]", "[FIRE]"), ("[TOOLS]", "[TOOLS]"),
  ("*", "*"), ("[MAP]", "[MAP]"), ("[BOOK]", "[BOOK]"),
  ("[CLEAN]", "[CLEAN]"), ("[FIND]", "[FIND]"), ("[IDEA]", "[IDEA]"),
  ("[FOLDER]", "[FOLDER]"), ("[WAIT]", "[WAIT]"), ("[ALERT]", "[ALERT]"),
  ("[BLOCK]", "[BLOCK]"), ("[STATS]", "[STATS]"), ("[PIN]", "[PIN]"),
  ("[BRAIN]", "[BRAIN]"), ("[ROLES]", "[ROLES]"), ("[BUG]", "[BUG]"),
  ("[KEY]", "[KEY]"), ("[WAVE]", "[WAVE]"), ("[INBOX]", "[INBOX]"),
  ("[PKG]", "[PKG]"), ("[STOP]", "[STOP]"), ("[LOCK]", "[LOCK]"),
  ("[FREE]", "[FREE]"), ("[FAST]", "[FAST]"), ("[123]", "[123]"),
  ("[$$]", "[$$]"), ("[TAG]", "[TAG]"), ("[ADMIN]", "[ADMIN]"),
  ("->", "->"), ("[VIEW]", "[VIEW]"), ("<<", "<<"), ("[WIP]", "[WIP]"),
  ("<->", "<->"), ("[OUT]", "[OUT]"), ("+", "+"), ("[CAM]", "[CAM]"),
  ("[SHIELD]", "[SHIELD]"), ("[FLAG]", "[FLAG]"), ("[SET]", "[SET]"),
  ("[FILES]", "[FILES]"), ("[FOLDER]", "[FOLDER]"), ("[DOC]", "[DOC]"),
  ("TM", "TM"), ("[UP]", "[UP]"), ("[HANDSHAKE]", "[HANDSHAKE]"),
  ("[ANTENNA]", "[ANTENNA]"), ("[LINK]", "[LINK]"), ("[TEAM]", "[TEAM]"),
  ("[USER]", "[USER]"), ("[BANK]", "[BANK]"), ("[FUEL]", "[FUEL]"),
  ("[DOC]", "[DOC]"), ("[WOMAN]", "[WOMAN]"), ("[MAN]", "[MAN]"),
  ("[PICK]", "[PICK]"), ("[DOWN]", "[DOWN]"), ("[WRITE]", "[WRITE]"),
  ("[VOTE]", "[VOTE]"), ("[BOOM]", "[BOOM]"), ("[PC]", "[PC]"),
  ("[MAIL]", "[MAIL]"), ("[GOGGLES]", "[GOGGLES]"),
  ("[HAMMER]", "[HAMMER]"), ("[BOT]", "[BOT]"), ("[DISK]", "[DISK]"),
  ("[?]", "[?]"), ("<<", "<<"), ("<", "<"), (">", ">"), (">>", ">>"),
  ("[SCALES]", "[SCALES]"), ("[SWORDS]", "[SWORDS]"), ("[TIME]", "[TIME]"),
  ("[BOOKMARK]", "[BOOKMARK]"), ("||", "||"), ("[PHONE]", "[PHONE]"),
  ("[CRYSTAL]", "[CRYSTAL]"), ("[COURT]", "[COURT]"),
  ("[TROPHY]", "[TROPHY]"), ("[UP]", "[UP]"), ("[PLUG]", "[PLUG]"),
  ("[CARD]", "[CARD]"), ("[PHONE]", "[PHONE]"), ("[SPARK]", "[SPARK]"),
  ("[ALARM]", "[ALARM]"), ("[CHAT]", "[CHAT]"), ("[LOCK]", "[LOCK]"),
  ("[10]", "[10]"), ("*", "*"), ("[PA]", "[PA]"), ("[JOKER]", "[JOKER]"),
  ("[LIGHTS]", "[LIGHTS]"), ("[PUZZLE]", "[PUZZLE]"),
  ("[SHUFFLE]", "[SHUFFLE]"), ("[REPEAT]", "[REPEAT]"), ("[DNA]", "[DNA]"),
  ("[COMPASS]", "[COMPASS]"), ("[PIN]", "[PIN]"),
  ("[TELESCOPE]", "[TELESCOPE]"), ("o", "o"), ("[TIMER]", "[TIMER]"),
  ("[WEB]", "[WEB]"), ("[PEN]", "[PEN]"), ("[TRASH]", "[TRASH]"),
  ("*", "*"), ("->", "->"), ("[ABC]", "[ABC]"), ("<->", "<->"),
  ("o", "o"), ("o", "o"), ("o", "o"), ("o", "o"), ("o", "o"),
  ("[COIN]", "[COIN]"), ("[FACTORY]", "[FACTORY]"), ("[NEW]", "[NEW]"),
  ("[BRICK]", "[BRICK]"), ("[SAT]", "[SAT]"), ("[EARTH]", "[EARTH]"),
  ("[BRIDGE]", "[BRIDGE]"), ("[FX]", "[FX]"), ("[DICE]", "[DICE]"),
  ("[CAM]", "[CAM]"), ("[MENU]", "[MENU]"), ("~", "~"),
  ("[UNLOCK]", "[UNLOCK]"), ("[SKULL]", "[SKULL]"), ("[SUN]", "[SUN]"),
  ("[MOON]", "[MOON]"), ("[OUTBOX]", "[OUTBOX]"), ("[SHRUG]", "[SHRUG]"),
  ("<-", "<-"), ("[HOME]", "[HOME]"), ("[ ]", "[ ]"),
  ("[GREEN]", "[GREEN]"), ("[BANDAGE]", "[BANDAGE]"), ("[BLUE]", "[BLUE]"),
  ("[ID]", "[ID]")]

/-- Lookup in a Python dict modelled as an ordered association list. -/
def dictGet : List (String × String) → String → Option String
  | [], _ => none
  | (k, v) :: d, s => if s = k then some v else dictGet d s

/-- Insertion into a Python dict modelled as an ordered association list:
an existing key keeps its position and is overwritten, a new key is
appended (CPython dict literal semantics, last write wins). -/
def dictInsert (d : List (String × String)) (k v : String) :
    List (String × String) :=
  if d.any (fun p => p.1 == k) then
    d.map (fun p => if p.1 = k then (k, v) else p)
  else
    d ++ [(k, v)]

/-- The `MAP` dict of the source: the dict literal folded with
last-write-wins insertion, preserving first-insertion iteration order. -/
def MAP : List (String × String) :=
  MAP_entries.foldl (fun d p => dictInsert d p.1 p.2) []

/-- `REMOVE_CHARS` of the source (line 197): the singleton set holding
the variation-selector-16 string, so the set's iteration order is
immaterial. -/
def REMOVE_CHARS : List String := ["\uFE0F"]

/-- The pictographic codepoint test of `replace_in_text` (source lines
260-266). -/
def inRanges (n : Nat) : Bool :=
  decide ((0x1F000 ≤ n ∧ n ≤ 0x1FAFF) ∨ (0x2600 ≤ n ∧ n ≤ 0x27BF) ∨
    (0x2300 ≤ n ∧ n ≤ 0x23FF) ∨ (0x2190 ≤ n ∧ n ≤ 0x21FF) ∨
    n = 0x2122 ∨ n = 0x2139)

/-- Python `str.isalnum` restricted to its ASCII fragment, the only part
exercised here: Unicode character names consist of A-Z, 0-9, hyphen and
space only. -/
def pyIsAlnum (c : Char) : Bool :=
  (65 ≤ c.toNat && c.toNat ≤ 90) || (97 ≤ c.toNat && c.toNat ≤ 122) ||
    (48 ≤ c.toNat && c.toNat ≤ 57)

/-- Python `str.upper`, per character, restricted to its ASCII fragment. -/
def pyToUpper (c : Char) : Char :=
  if h : 97 ≤ c.toNat ∧ c.toNat ≤ 122 then
    Char.ofNatAux (c.toNat - 32) (Or.inl (by omega))
  else c

/-- Python `str.lower`, per character, restricted to its ASCII fragment. -/
def pyLower (c : Char) : Char :=
  if h : 65 ≤ c.toNat ∧ c.toNat ≤ 90 then
    Char.ofNatAux (c.toNat + 32) (Or.inl (by omega))
  else c

/-- The whitespace characters Python `str.split()` splits on (ASCII
fragment; Unicode character names contain no whitespace besides space). -/
def isSpaceChar (c : Char) : Bool :=
  c == ' ' || c == '\t' || c == '\n' || c == '\r' || c == '\x0B' ||
    c == '\x0C'

/-- `name.split()[0]`: the first whitespace-delimited word.  (For the
empty or all-whitespace name, which `unicodedata.name` never returns,
Python would raise; the model yields `[]`, which the caller turns into
the token `SYM`.) -/
def headWord (l : List Char) : List Char :=
  (l.dropWhile isSpaceChar).takeWhile (fun c => !(isSpaceChar c))

/-- `fallback` of the source (lines 239-250), parameterised by the
Unicode-name lookup: on `ValueError` (`none`) the character itself is
returned; otherwise the first word of the name is stripped to its
alphanumeric characters and uppercased, with `SYM` replacing an empty
token, and wrapped in square brackets. -/
def fallback (uname : Char → Option String) (ch : Char) : String :=
  match uname ch with
  | none => String.mk [ch]
  | some name =>
    let token := ((headWord name.data).filter pyIsAlnum).map pyToUpper
    let token := if token.isEmpty then "SYM".data else token
    String.mk ('[' :: token ++ [']'])

/-- The body of the per-character loop of `replace_in_text` (source lines
253-269): dict keys win, removal characters vanish, pictographic-range
characters go through `fallback`, everything else passes through. -/
def emitChar (uname : Char → Option String) (ch : Char) : List Char :=
  match dictGet MAP (String.mk [ch]) with
  | some v => v.data
  | none =>
    if REMOVE_CHARS.contains (String.mk [ch]) then []
    else if inRanges ch.toNat then (fallback uname ch).data
    else [ch]

/-- The whole per-character pass: emitted pieces concatenated with
`''.join`. -/
def pass3 (uname : Char → Option String) (l : List Char) : List Char :=
  (l.map (emitChar uname)).flatten

/-- The removal pass (source lines 231-232): delete every occurrence of
each removal character. -/
def removalPass (l : List Char) : List Char :=
  REMOVE_CHARS.foldl (fun t rc => pyReplace t rc.data []) l

/-- The literal substitution pass (source lines 234-236): for each table
entry in iteration order, if the key occurs, replace all occurrences. -/
def substPass (l : List Char) : List Char :=
  MAP.foldl
    (fun t p => if containsSub t p.1.data then pyReplace t p.1.data p.2.data
      else t) l

/-- `replace_in_text` of the source (lines 227-270): the empty string is
returned at once; otherwise removal, literal substitution and the
per-character fallback pass run in order. -/
def replace_in_text (uname : Char → Option String) (text : String) :
    String :=
  if text = "" then text
  else String.mk (pass3 uname (substPass (removalPass text.data)))

/-- Recorded entries of the Unicode name database (`unicodedata.name`),
which lives outside this repository: U+1F680 is named ROCKET, and the
codepoints of the Mahjong block above U+1F02B, among them U+1F02C, are
unassigned, so name lookup raises there (`none`).  Codepoints not listed
are not consulted by any concrete statement below. -/
def udName (c : Char) : Option String :=
  if c = '🚀' then some "ROCKET" else none

/-- An ASCII uppercase letter or digit: the character class `[A-Z0-9]` of
the fallback well-formedness property. -/
def isUpperDigit (c : Char) : Bool :=
  (65 ≤ c.toNat && c.toNat ≤ 90) || (48 ≤ c.toNat && c.toNat ≤ 57)

/-- A segment of the shape `[A-Z0-9]+` enclosed in square brackets (the
token `[SYM]` is an instance). -/
def bracketedAlnumToken (l : List Char) : Bool :=
  match l with
  | [] => false
  | c :: rest =>
    c == '[' && rest.getLast? == some ']' &&
      !(rest.dropLast).isEmpty && (rest.dropLast).all isUpperDigit

/-- `TEXT_EXTS` of the source (lines 199-207). -/
def TEXT_EXTS : List String := [
  ".md", ".txt", ".ts", ".tsx", ".js", ".jsx", ".json", ".jsonc",
  ".svelte", ".html", ".css", ".scss", ".sass", ".less",
  ".yaml", ".yml", ".toml", ".ini", ".conf",
  ".sh", ".bash", ".zsh", ".fish",
  ".py", ".rb", ".go", ".rs", ".java", ".kt", ".swift",
  ".c", ".h", ".cc", ".cpp", ".m", ".mm",
  ".csv"]

/-- The binary-extension deny list local to `looks_text` (line 214). -/
def bin_exts : List String := [
  ".png", ".jpg", ".jpeg", ".gif", ".webp", ".pdf", ".woff", ".woff2",
  ".ttf", ".otf", ".ico", ".mp4", ".mp3"]

/-- `os.path.splitext(path)[1]` for POSIX paths: the extension starts at
the last dot of the final path component, provided some character other
than a dot stands between the component's start and that dot (so dotfiles
like `.bashrc` have no extension). -/
def splitextExt (path : String) : String :=
  let revBase := path.data.reverse.takeWhile (fun c => !(c == '/'))
  if revBase.contains '.' then
    let revExt := revBase.takeWhile (fun c => !(c == '.'))
    let leading := revBase.drop (revExt.length + 1)
    if leading.any (fun c => !(c == '.')) then
      String.mk ('.' :: revExt.reverse)
    else ""
  else ""

/-- `os.path.splitext(path)[1].lower()`. -/
def lowerExt (path : String) : String :=
  String.mk ((splitextExt path).data.map pyLower)

/-- `looks_text` of the source (lines 209-225).  The bytes the sniffing
read would return are passed in: `Except.error` stands for any raised
exception, `Except.ok bs` for the file's raw bytes, of which the code
reads at most 2048. -/
def looks_text (path : String) (content : Except Unit (List Nat)) : Bool :=
  let ext := lowerExt path
  if TEXT_EXTS.contains ext then true
  else if bin_exts.contains ext then false
  else
    match content with
    | .error _ => false
    | .ok bs => if (bs.take 2048).contains 0 then false else true

/-- `EXCLUDE_DIRS` of the source (lines 18-31). -/
def EXCLUDE_DIRS : List String := [
  ".git", "node_modules", "build", "dist", ".next", ".svelte-kit",
  "out", "venv", ".venv", "target", "coverage", "tmp"]

/-- Python `d.startswith(".")`. -/
def dotFirst (d : String) : Bool :=
  match d.data with
  | [] => false
  | c :: _ => c == '.'

/-- Decidable equality of read results. -/
instance {ε α : Type} [DecidableEq ε] [DecidableEq α] :
    DecidableEq (Except ε α)
  | .error a, .error b =>
    if h : a = b then .isTrue (by rw [h]) else
      .isFalse (fun hc => h (by cases hc; rfl))
  | .error _, .ok _ => .isFalse (fun hc => Except.noConfusion hc)
  | .ok _, .error _ => .isFalse (fun hc => Except.noConfusion hc)
  | .ok a, .ok b =>
    if h : a = b then .isTrue (by rw [h]) else
      .isFalse (fun hc => h (by cases hc; rfl))

/-- A file as the walker sees it: its directory components below the
traversal root, its name, the raw bytes a read would yield (or a read
error), and the strict-UTF-8 decoding of its contents (`none` when
decoding raises `UnicodeDecodeError`). -/
structure SimFile where
  dirs : List String
  name : String
  bytes : Except Unit (List Nat)
  utf8 : Option String
deriving DecidableEq

/-- The path of a file relative to the traversal root (also the string
`os.path.relpath` produces for it in the report line). -/
def filePath (f : SimFile) : String :=
  String.intercalate "/" (f.dirs ++ [f.name])

/-- A file survives the walker's pruning (line 277) exactly when none of
its directory components is in `EXCLUDE_DIRS` or starts with a dot. -/
def visible (f : SimFile) : Bool :=
  f.dirs.all (fun d => !(EXCLUDE_DIRS.contains d || dotFirst d))

/-- The observable state of a `main` run: the two counters, the files
written back (path and new content, in order), and the lines printed. -/
structure WalkState where
  changed : Nat
  scanned : Nat
  writes : List (String × String)
  output : List String
deriving DecidableEq

/-- The body of the walker's per-file loop (source lines 278-295):
ineligible files are skipped, undecodable files are skipped, decodable
files are scanned, and a file is rewritten (and reported) exactly when
the transformation changed its text. -/
def processFile (uname : Char → Option String) (s : WalkState)
    (f : SimFile) : WalkState :=
  if looks_text (filePath f) f.bytes then
    match f.utf8 with
    | none => s
    | some text =>
      let newText := replace_in_text uname text
      if newText = text then
        { s with scanned := s.scanned + 1 }
      else
        { changed := s.changed + 1, scanned := s.scanned + 1,
          writes := s.writes ++ [(filePath f, newText)],
          output := s.output ++ ["Rewrote: " ++ filePath f] }
  else s

/-- `main` of the source (lines 272-297) over an explicit file list:
pruning hides every file below an excluded or dot-prefixed directory,
the remaining files are processed in order, and the summary line is
printed last.  (Traversal order of `os.walk` is abstracted to the order
of the file list; no claim depends on it.) -/
def runWalk (uname : Char → Option String) (fs : List SimFile) :
    WalkState :=
  let s := (fs.filter visible).foldl (processFile uname) ⟨0, 0, [], []⟩
  { s with output := s.output ++
      ["Done. Updated " ++ toString s.changed ++ " files (scanned " ++
        toString s.scanned ++ ")."] }

/-- Modelled from the spec: the simpler transformer of claim C10, which
only deletes the Removal Set characters and then applies the
per-character pictographic-range fallback. -/
def simpleEmit (uname : Char → Option String) (ch : Char) : List Char :=
  if inRanges ch.toNat then (fallback uname ch).data else [ch]

/-- Modelled from the spec: the whole simpler transformer of claim C10. -/
def transformSimple (uname : Char → Option String) (t : String) : String :=
  String.mk (((t.data.filter (fun c => !(c == '\uFE0F'))).map
    (simpleEmit uname)).flatten)

/-! Helper lemmas. -/

theorem startsWithList_append :
    ∀ (pat s : List Char), startsWithList pat s = true →
      pat ++ s.drop pat.length = s
  | [], s, _ => by simp
  | _ :: _, [], h => by simp [startsWithList] at h
  | p :: ps, c :: cs, h => by
    simp only [startsWithList, Bool.and_eq_true, beq_iff_eq] at h
    obtain ⟨rfl, h2⟩ := h
    simp only [List.length_cons, List.drop_succ_cons, List.cons_append,
      List.cons.injEq, true_and]
    exact startsWithList_append ps cs h2

theorem replaceFuel_self : ∀ (n : Nat) (s pat : List Char),
    replaceFuel n s pat pat = s
  | 0, _, _ => rfl
  | _ + 1, [], _ => rfl
  | n + 1, c :: cs, pat => by
    by_cases h : startsWithList pat (c :: cs) = true
    · simp only [replaceFuel, h, if_true]
      rw [replaceFuel_self n]
      exact startsWithList_append pat (c :: cs) h
    · simp only [replaceFuel, h, if_false, Bool.false_eq_true]
      rw [replaceFuel_self n]

theorem replaceFuel_single_empty :
    ∀ (n : Nat) (s : List Char) (c : Char), s.length ≤ n →
      replaceFuel n s [c] [] = s.filter (fun x => !(x == c))
  | 0, s, _, h => by
    have hs : s = [] := List.eq_nil_of_length_eq_zero (Nat.le_zero.mp h)
    subst hs; rfl
  | _ + 1, [], _, _ => rfl
  | n + 1, x :: xs, c, h => by
    have hlen : xs.length ≤ n := by
      simpa using Nat.le_of_succ_le_succ (by simpa using h)
    by_cases hx : c = x
    · subst hx
      have hsw : startsWithList [c] (c :: xs) = true := by
        simp [startsWithList]
      simp only [replaceFuel, hsw, if_true, List.length_cons,
        List.length_nil, List.drop_succ_cons, List.drop_zero,
        List.nil_append, List.filter_cons, beq_self_eq_true,
        Bool.not_true, Bool.false_eq_true, if_false]
      exact replaceFuel_single_empty n xs c hlen
    · have hsw : startsWithList [c] (x :: xs) = false := by
        simp only [startsWithList, Bool.and_true, beq_eq_false_iff_ne,
          ne_eq]
        exact hx
      have hbx : (x == c) = false := by
        simp only [beq_eq_false_iff_ne, ne_eq]
        exact fun hc => hx hc.symm
      simp only [replaceFuel, hsw, Bool.false_eq_true, if_false,
        List.filter_cons, hbx, Bool.not_false, if_true]
      rw [replaceFuel_single_empty n xs c hlen]

theorem containsSub_of_mem {x : Char} :
    ∀ {l : List Char}, x ∈ l → containsSub l [x] = true := by
  intro l hl
  induction l with
  | nil => cases hl
  | cons y ys ih =>
    simp only [containsSub, Bool.or_eq_true]
    rcases List.mem_cons.mp hl with h | h
    · left; subst h; simp [startsWithList]
    · right; exact ih h

theorem mem_of_dictGet :
    ∀ (d : List (String × String)) (k v : String),
      dictGet d k = some v → (k, v) ∈ d
  | [], k, v, h => by simp [dictGet] at h
  | (a, b) :: d, k, v, h => by
    simp only [dictGet] at h
    by_cases hk : k = a
    · rw [if_pos hk] at h
      injection h with hv
      subst hv; subst hk
      exact List.mem_cons_self ..
    · rw [if_neg hk] at h
      exact List.mem_cons_of_mem _ (mem_of_dictGet d k v h)

theorem mem_dictInsert {d : List (String × String)} {k v : String}
    {x : String × String} (hx : x ∈ dictInsert d k v) :
    x ∈ d ∨ x = (k, v) := by
  unfold dictInsert at hx
  by_cases h : d.any (fun p => p.1 == k) = true
  · rw [if_pos h] at hx
    obtain ⟨p, hp, hpe⟩ := List.mem_map.mp hx
    by_cases hk : p.1 = k
    · right; rw [if_pos hk] at hpe; exact hpe.symm
    · left; rw [if_neg hk] at hpe; rw [← hpe]; exact hp
  · rw [if_neg h] at hx
    rcases List.mem_append.mp hx with h1 | h1
    · exact Or.inl h1
    · right; simpa using h1

theorem mem_dictFold :
    ∀ (l d : List (String × String)) (x : String × String),
      x ∈ l.foldl (fun d p => dictInsert d p.1 p.2) d → x ∈ d ∨ x ∈ l
  | [], _, _, h => Or.inl h
  | p :: ps, d, x, h => by
    rcases mem_dictFold ps (dictInsert d p.1 p.2) x h with h1 | h1
    · rcases mem_dictInsert h1 with h2 | h2
      · exact Or.inl h2
      · exact Or.inr (by rw [h2]; exact List.mem_cons_self ..)
    · exact Or.inr (List.mem_cons_of_mem _ h1)

theorem MAP_sub {x : String × String} (hx : x ∈ MAP) : x ∈ MAP_entries := by
  rcases mem_dictFold MAP_entries [] x hx with h | h
  · cases h
  · exact h

set_option maxRecDepth 40000 in
theorem entries_kv : ∀ p ∈ MAP_entries, p.1 = p.2 := by decide

set_option maxRecDepth 40000 in
theorem entries_ascii :
    ∀ p ∈ MAP_entries, ∀ c ∈ p.1.data, c.toNat ≤ 126 := by decide

set_option maxRecDepth 40000 in
theorem entries_single :
    ∀ p ∈ MAP_entries, p.1.data.length = 1 →
      ∀ c ∈ p.1.data,
        ((c == '[') || (c == ']') || isUpperDigit c) = false := by decide

theorem MAP_kv {p : String × String} (hp : p ∈ MAP) : p.1 = p.2 :=
  entries_kv p (MAP_sub hp)

theorem dictGet_MAP_val {k v : String} (h : dictGet MAP k = some v) :
    v = k :=
  (MAP_kv (mem_of_dictGet MAP k v h)).symm

theorem dictGet_MAP_ascii {k v : String} (h : dictGet MAP k = some v) :
    ∀ c ∈ k.data, c.toNat ≤ 126 :=
  entries_ascii _ (MAP_sub (mem_of_dictGet MAP k v h))

theorem goodChar_not_key {c : Char}
    (hc : ((c == '[') || (c == ']') || isUpperDigit c) = true) :
    dictGet MAP (String.mk [c]) = none := by
  cases hv : dictGet MAP (String.mk [c]) with
  | none => rfl
  | some v =>
    exfalso
    have hm := MAP_sub (mem_of_dictGet MAP _ v hv)
    have h1 := entries_single _ hm rfl c (List.mem_singleton.mpr rfl)
    rw [h1] at hc
    exact Bool.false_ne_true hc

theorem inRanges_false_of_ascii {n : Nat} (h : n ≤ 126) :
    inRanges n = false := by
  simp only [inRanges, decide_eq_false_iff_not]
  omega

theorem toNat_ofNatAux (n : Nat) (h : n.isValidChar) :
    (Char.ofNatAux n h).toNat = n := rfl

theorem pyToUpper_upperDigit {c : Char} (h : pyIsAlnum c = true) :
    isUpperDigit (pyToUpper c) = true := by
  simp only [pyIsAlnum, Bool.or_eq_true, Bool.and_eq_true,
    decide_eq_true_eq] at h
  unfold pyToUpper
  by_cases hl : 97 ≤ c.toNat ∧ c.toNat ≤ 122
  · rw [dif_pos hl]
    simp only [isUpperDigit, toNat_ofNatAux, Bool.or_eq_true,
      Bool.and_eq_true, decide_eq_true_eq]
    omega
  · rw [dif_neg hl]
    simp only [isUpperDigit, Bool.or_eq_true, Bool.and_eq_true,
      decide_eq_true_eq]
    omega

theorem upperDigit_ascii {c : Char} (h : isUpperDigit c = true) :
    c.toNat ≤ 126 := by
  simp only [isUpperDigit, Bool.or_eq_true, Bool.and_eq_true,
    decide_eq_true_eq] at h
  omega

theorem string_mk_single_inj {c d : Char}
    (h : String.mk [c] = String.mk [d]) : c = d := by
  have hd := congrArg String.data h
  simpa using hd

theorem remove_contains_iff {c : Char} :
    REMOVE_CHARS.contains (String.mk [c]) = true ↔ c = '\uFE0F' := by
  show (String.mk [c] == String.mk ['\uFE0F'] || false) = true ↔ _
  simp only [Bool.or_false, beq_iff_eq]
  constructor
  · exact string_mk_single_inj
  · intro h; rw [h]

theorem fallback_of_none {uname : Char → Option String} {c : Char}
    (h : uname c = none) : fallback uname c = String.mk [c] := by
  unfold fallback; rw [h]

theorem fallback_of_some {uname : Char → Option String} {c : Char}
    {name : String} (h : uname c = some name) :
    ∃ token : List Char, token ≠ [] ∧
      (∀ x ∈ token, isUpperDigit x = true) ∧
      fallback uname c = String.mk ('[' :: token ++ [']']) := by
  unfold fallback
  rw [h]
  by_cases he :
      (((headWord name.data).filter pyIsAlnum).map pyToUpper).isEmpty = true
  · refine ⟨"SYM".data, by decide, by decide, ?_⟩
    simp only [he, if_true]
  · refine ⟨((headWord name.data).filter pyIsAlnum).map pyToUpper,
      fun hnil => he (by rw [hnil]; rfl), ?_, by simp only [he,
        Bool.false_eq_true, if_false]⟩
    intro x hx
    obtain ⟨y, hy, rfl⟩ := List.mem_map.mp hx
    exact pyToUpper_upperDigit (List.mem_filter.mp hy).2

theorem emit_of_key {uname : Char → Option String} {c : Char} {v : String}
    (h : dictGet MAP (String.mk [c]) = some v) :
    emitChar uname c = [c] := by
  unfold emitChar
  rw [h, dictGet_MAP_val h]

theorem key_char_ascii {c : Char} {v : String}
    (h : dictGet MAP (String.mk [c]) = some v) : c.toNat ≤ 126 :=
  dictGet_MAP_ascii h c (by simp)

theorem goodChar_ascii {x : Char}
    (hc : ((x == '[') || (x == ']') || isUpperDigit x) = true) :
    x.toNat ≤ 126 := by
  simp only [Bool.or_eq_true, beq_iff_eq] at hc
  rcases hc with (h | h) | h
  · rw [h]; decide
  · rw [h]; decide
  · exact upperDigit_ascii h

theorem not_remove_of_ascii {c : Char} (h : c.toNat ≤ 126) :
    REMOVE_CHARS.contains (String.mk [c]) = false := by
  rw [← Bool.not_eq_true]
  intro hm
  have := remove_contains_iff.mp hm
  subst this
  exact absurd h (by decide)

theorem goodChar_emit {x : Char} (uname : Char → Option String)
    (hc : ((x == '[') || (x == ']') || isUpperDigit x) = true) :
    emitChar uname x = [x] := by
  have ha := goodChar_ascii hc
  unfold emitChar
  rw [goodChar_not_key hc, not_remove_of_ascii ha,
    inRanges_false_of_ascii ha]
  rfl

theorem emit_stable (uname : Char → Option String) (c : Char) :
    ∀ x ∈ emitChar uname c, emitChar uname x = [x] := by
  intro x hx
  unfold emitChar at hx
  cases hd : dictGet MAP (String.mk [c]) with
  | some v =>
    rw [hd, dictGet_MAP_val hd] at hx
    have hxc : x = c := by simpa using hx
    subst hxc
    exact emit_of_key hd
  | none =>
    rw [hd] at hx
    by_cases hrm : REMOVE_CHARS.contains (String.mk [c]) = true
    · rw [hrm] at hx; simp at hx
    · rw [Bool.not_eq_true] at hrm
      rw [hrm] at hx
      simp only [Bool.false_eq_true, if_false] at hx
      by_cases hr : inRanges c.toNat = true
      · rw [hr] at hx
        simp only [if_true] at hx
        cases hu : uname c with
        | none =>
          rw [fallback_of_none hu] at hx
          have hxc : x = c := by simpa using hx
          subst hxc
          unfold emitChar
          rw [hd, hrm, hr]
          simp only [Bool.false_eq_true, if_false, if_true,
            fallback_of_none hu]
        | some name =>
          obtain ⟨token, -, htok, hfb⟩ := fallback_of_some (c := c) hu
          rw [hfb] at hx
          have hx2 : x = '[' ∨ x ∈ token ∨ x = ']' := by
            have : x ∈ '[' :: token ++ [']'] := hx
            rcases List.mem_cons.mp this with h1 | h1
            · exact Or.inl h1
            · rcases List.mem_append.mp h1 with h2 | h2
              · exact Or.inr (Or.inl h2)
              · exact Or.inr (Or.inr (by simpa using h2))
          apply goodChar_emit uname
          rcases hx2 with h1 | h1 | h1
          · simp [h1]
          · simp [htok x h1]
          · simp [h1]
      · rw [Bool.not_eq_true] at hr
        rw [hr] at hx
        simp only [Bool.false_eq_true, if_false] at hx
        have hxc : x = c := by simpa using hx
        subst hxc
        unfold emitChar
        rw [hd, hrm, hr]
        simp

theorem emit_noVS (uname : Char → Option String) (c : Char) :
    ∀ x ∈ emitChar uname c, x ≠ '\uFE0F' := by
  intro x hx
  unfold emitChar at hx
  cases hd : dictGet MAP (String.mk [c]) with
  | some v =>
    rw [hd, dictGet_MAP_val hd] at hx
    have hxc : x = c := by simpa using hx
    subst hxc
    intro hvs
    have ha := key_char_ascii hd
    rw [hvs] at ha
    exact absurd ha (by decide)
  | none =>
    rw [hd] at hx
    by_cases hrm : REMOVE_CHARS.contains (String.mk [c]) = true
    · rw [hrm] at hx; simp at hx
    · rw [Bool.not_eq_true] at hrm
      rw [hrm] at hx
      simp only [Bool.false_eq_true, if_false] at hx
      by_cases hr : inRanges c.toNat = true
      · rw [hr] at hx
        simp only [if_true] at hx
        cases hu : uname c with
        | none =>
          rw [fallback_of_none hu] at hx
          have hxc : x = c := by simpa using hx
          subst hxc
          intro hvs
          rw [hvs] at hr
          exact absurd hr (by decide)
        | some name =>
          obtain ⟨token, -, htok, hfb⟩ := fallback_of_some (c := c) hu
          rw [hfb] at hx
          have hx1 : x ∈ '[' :: token ++ [']'] := hx
          have hgood : ((x == '[') || (x == ']') || isUpperDigit x) = true := by
            rcases List.mem_cons.mp hx1 with h1 | h1
            · simp [h1]
            · rcases List.mem_append.mp h1 with h2 | h2
              · simp [htok x h2]
              · have : x = ']' := by simpa using h2
                simp [this]
          intro hvs
          have ha := goodChar_ascii hgood
          rw [hvs] at ha
          exact absurd ha (by decide)
      · rw [Bool.not_eq_true] at hr
        rw [hr] at hx
        simp only [Bool.false_eq_true, if_false] at hx
        have hxc : x = c := by simpa using hx
        subst hxc
        intro hvs
        rw [hvs] at hrm
        have htrue := remove_contains_iff.mpr rfl
        rw [hrm] at htrue
        exact Bool.false_ne_true htrue

theorem pass3_cons (uname : Char → Option String) (c : Char)
    (l : List Char) :
    pass3 uname (c :: l) = emitChar uname c ++ pass3 uname l := rfl

theorem mem_pass3 {uname : Char → Option String} {x : Char}
    {l : List Char} (h : x ∈ pass3 uname l) :
    ∃ c ∈ l, x ∈ emitChar uname c := by
  simp only [pass3, List.mem_flatten, List.mem_map] at h
  obtain ⟨piece, ⟨c, hc, rfl⟩, hxp⟩ := h
  exact ⟨c, hc, hxp⟩

theorem pass3_of_id {uname : Char → Option String} {l : List Char}
    (h : ∀ x ∈ l, emitChar uname x = [x]) : pass3 uname l = l := by
  induction l with
  | nil => rfl
  | cons c cs ih =>
    rw [pass3_cons, h c (List.mem_cons_self ..),
      ih (fun x hx => h x (List.mem_cons_of_mem _ hx))]
    rfl

theorem pass3_idem (uname : Char → Option String) (l : List Char) :
    pass3 uname (pass3 uname l) = pass3 uname l :=
  pass3_of_id (fun x hx =>
    (mem_pass3 hx).elim (fun c hc => emit_stable uname c x hc.2))

theorem pass3_noVS (uname : Char → Option String) (l : List Char) :
    '\uFE0F' ∉ pass3 uname l := by
  intro h
  obtain ⟨c, -, hc⟩ := mem_pass3 h
  exact emit_noVS uname c _ hc rfl

theorem substFold_id :
    ∀ (m : List (String × String)) (t : List Char),
      (∀ p ∈ m, p.1 = p.2) →
      m.foldl (fun t p =>
        if containsSub t p.1.data then pyReplace t p.1.data p.2.data
        else t) t = t
  | [], _, _ => rfl
  | p :: ps, t, h => by
    have h1 : p.1 = p.2 := h p (List.mem_cons_self ..)
    have hstep :
        (if containsSub t p.1.data then pyReplace t p.1.data p.2.data
          else t) = t := by
      rw [← h1]
      by_cases hc : containsSub t p.1.data = true
      · rw [if_pos hc]; exact replaceFuel_self _ _ _
      · rw [if_neg hc]
    rw [List.foldl_cons, hstep]
    exact substFold_id ps t (fun q hq => h q (List.mem_cons_of_mem _ hq))

theorem substPass_id (l : List Char) : substPass l = l :=
  substFold_id MAP l (fun _ hp => MAP_kv hp)

theorem removalPass_eq_filter (l : List Char) :
    removalPass l = l.filter (fun x => !(x == '\uFE0F')) := by
  show pyReplace l "\uFE0F".data [] = _
  exact replaceFuel_single_empty l.length l _ (Nat.le_refl _)

theorem filter_of_noVS {l : List Char} (h : '\uFE0F' ∉ l) :
    l.filter (fun x => !(x == '\uFE0F')) = l := by
  rw [List.filter_eq_self]
  intro a ha
  simp only [Bool.not_eq_eq_eq_not, Bool.not_true, beq_eq_false_iff_ne,
    ne_eq]
  intro hav
  exact h (hav ▸ ha)

theorem transform_data {uname : Char → Option String} {t : String}
    (h : ¬ t = "") :
    replace_in_text uname t =
      String.mk (pass3 uname (t.data.filter (fun x => !(x == '\uFE0F')))) := by
  unfold replace_in_text
  rw [if_neg h, ← removalPass_eq_filter, substPass_id]

theorem emit_eq_simple (uname : Char → Option String) {c : Char}
    (hc : c ≠ '\uFE0F') : emitChar uname c = simpleEmit uname c := by
  unfold emitChar simpleEmit
  cases hd : dictGet MAP (String.mk [c]) with
  | some v =>
    have ha : c.toNat ≤ 126 := key_char_ascii hd
    dsimp only
    rw [dictGet_MAP_val hd, inRanges_false_of_ascii ha]
    rfl
  | none =>
    have hrm : REMOVE_CHARS.contains (String.mk [c]) = false := by
      rw [← Bool.not_eq_true]
      intro h1
      exact hc (remove_contains_iff.mp h1)
    dsimp only
    rw [hrm]
    simp only [Bool.false_eq_true, if_false]

set_option maxRecDepth 8192 in
theorem pass3_eq_simple (uname : Char → Option String) :
    ∀ (l : List Char), '\uFE0F' ∉ l →
      pass3 uname l = (l.map (simpleEmit uname)).flatten
  | [], _ => rfl
  | c :: cs, h => by
    have hc : c ≠ '\uFE0F' := by
      intro hv
      exact h (by rw [← hv]; exact List.mem_cons_self ..)
    rw [pass3_cons, emit_eq_simple uname hc, List.map_cons,
      List.flatten_cons,
      pass3_eq_simple uname cs (fun hm => h (List.mem_cons_of_mem _ hm))]

theorem contains_eq_false_of_not_mem {a : Char} {l : List Char}
    (h : a ∉ l) : l.contains a = false := by
  simpa using h

/-! Claim theorems for the transformer. -/

/-- C2: the transformer is idempotent: applying `replace_in_text` twice
equals applying it once, for every Unicode string and every Unicode-name
lookup; as a Lean function it is total and pure by construction. -/
theorem C2_transform_idempotent (uname : Char → Option String)
    (t : String) :
    replace_in_text uname (replace_in_text uname t) =
      replace_in_text uname t := by
  by_cases h : t = ""
  · rw [h]; rfl
  · rw [transform_data h]
    by_cases h2 : String.mk (pass3 uname (t.data.filter
        (fun x => !(x == '\uFE0F')))) = ""
    · rw [h2]; rfl
    · rw [transform_data h2]
      show String.mk (pass3 uname ((pass3 uname (t.data.filter
        (fun x => !(x == '\uFE0F')))).filter (fun x => !(x == '\uFE0F')))) = _
      rw [filter_of_noVS (pass3_noVS uname _), pass3_idem]

/-- C3: the transformed text never contains the variation-selector-16
character U+FE0F, for any input and any Unicode-name lookup. -/
theorem C3_no_variation_selector (uname : Char → Option String)
    (t : String) :
    (replace_in_text uname t).data.contains '\uFE0F' = false := by
  by_cases h : t = ""
  · rw [h]; rfl
  · rw [transform_data h]
    exact contains_eq_false_of_not_mem (pass3_noVS uname _)

/-- C9: pass-through: a string containing no removal character, no
occurrence of any Substitution Table key as a substring, and no
pictographic-range character is returned unchanged by the transformer. -/
theorem C9_passthrough (uname : Char → Option String) (t : String)
    (h1 : '\uFE0F' ∉ t.data)
    (h2 : ∀ p ∈ MAP_entries, containsSub t.data p.1.data = false)
    (h3 : ∀ c ∈ t.data, inRanges c.toNat = false) :
    replace_in_text uname t = t := by
  by_cases h : t = ""
  · rw [h]; rfl
  · rw [transform_data h, filter_of_noVS h1]
    have hid : pass3 uname t.data = t.data := by
      apply pass3_of_id
      intro x hx
      cases hd : dictGet MAP (String.mk [x]) with
      | some v =>
        exfalso
        have hm := MAP_sub (mem_of_dictGet MAP _ v hd)
        have hc2 : containsSub t.data [x] = false := h2 _ hm
        rw [containsSub_of_mem hx] at hc2
        exact Bool.noConfusion hc2
      | none =>
        have hxv : x ≠ '\uFE0F' := fun hv => h1 (hv ▸ hx)
        have hrm : REMOVE_CHARS.contains (String.mk [x]) = false := by
          rw [← Bool.not_eq_true]
          intro hm
          exact hxv (remove_contains_iff.mp hm)
        unfold emitChar
        rw [hd]
        dsimp only
        rw [hrm, h3 x hx]
        simp
    rw [hid]

/-- C10: every Substitution Table entry maps its key to itself, so the
transformer coincides with the simpler function that only deletes the
removal characters and then applies the per-character
pictographic-range fallback. -/
theorem C10_map_identity_refinement :
    MAP.all (fun p => p.1 == p.2) = true ∧
      ∀ (uname : Char → Option String) (t : String),
        replace_in_text uname t = transformSimple uname t := by
  constructor
  · rw [List.all_eq_true]
    intro p hp
    rw [beq_iff_eq]
    exact MAP_kv hp
  · intro uname t
    by_cases h : t = ""
    · rw [h]; rfl
    · rw [transform_data h]
      unfold transformSimple
      have hnv : '\uFE0F' ∉ t.data.filter (fun x => !(x == '\uFE0F')) := by
        intro hm
        have := (List.mem_filter.mp hm).2
        simp at this
      rw [pass3_eq_simple uname _ hnv]

set_option maxRecDepth 100000 in
/-- C1 counterexample: the unassigned codepoint U+1F02C lies in the
pictographic ranges, is not a table key, and its Unicode name lookup
fails; the transformer emits the character itself, which is neither a
bracketed `[A-Z0-9]+` token nor `[SYM]`, refuting the claim that a
failed name lookup yields `[SYM]`. -/
theorem C1_counterexample :
    inRanges (Char.ofNat 0x1F02C).toNat = true ∧
    dictGet MAP (String.mk [Char.ofNat 0x1F02C]) = none ∧
    udName (Char.ofNat 0x1F02C) = none ∧
    emitChar udName (Char.ofNat 0x1F02C) = [Char.ofNat 0x1F02C] ∧
    bracketedAlnumToken (emitChar udName (Char.ofNat 0x1F02C)) = false ∧
    (emitChar udName (Char.ofNat 0x1F02C) == "[SYM]".data) = false := by
  decide

/-- C1 (amended): for a single pictographic-range character that is not
a Substitution Table key, the emitted segment is a bracketed `[A-Z0-9]+`
token (with `[SYM]` for an empty token) whenever the Unicode name lookup
succeeds; when the name lookup fails the character itself is emitted
unchanged (not `[SYM]`). -/
theorem C1_fallback_wellformed (uname : Char → Option String) (c : Char)
    (hr : inRanges c.toNat = true)
    (hk : ∀ p ∈ MAP_entries, p.1 ≠ String.mk [c]) :
    (uname c = none → emitChar uname c = [c]) ∧
    (∀ name, uname c = some name →
      bracketedAlnumToken (emitChar uname c) = true) := by
  have hd : dictGet MAP (String.mk [c]) = none := by
    cases hv : dictGet MAP (String.mk [c]) with
    | none => rfl
    | some v =>
      exact absurd rfl (hk _ (MAP_sub (mem_of_dictGet MAP _ v hv)))
  have hvs : c ≠ '\uFE0F' := by
    intro hv
    rw [hv] at hr
    exact absurd hr (by decide)
  have hrm : REMOVE_CHARS.contains (String.mk [c]) = false := by
    rw [← Bool.not_eq_true]
    intro hm
    exact hvs (remove_contains_iff.mp hm)
  constructor
  · intro hu
    unfold emitChar
    rw [hd]
    dsimp only
    rw [hrm, hr]
    simp only [Bool.false_eq_true, if_false, if_true,
      fallback_of_none hu]
  · intro name hu
    obtain ⟨token, hne, htok, hfb⟩ := fallback_of_some (c := c) hu
    unfold emitChar
    rw [hd]
    dsimp only
    rw [hrm, hr]
    simp only [Bool.false_eq_true, if_false, if_true, hfb]
    show bracketedAlnumToken ('[' :: (token ++ [']'])) = true
    simp only [bracketedAlnumToken, List.getLast?_concat,
      List.dropLast_concat, beq_self_eq_true, Bool.true_and,
      Bool.and_eq_true, Bool.not_eq_eq_eq_not, Bool.not_false,
      List.all_eq_true]
    refine ⟨?_, htok⟩
    cases token with
    | nil => exact absurd rfl hne
    | cons a as => rfl

set_option maxRecDepth 40000 in
/-- C1 witness: the rocket character U+1F680 (a pictographic non-key
with a successful name lookup) instantiates the amended statement. -/
theorem C1_witness : bracketedAlnumToken (emitChar udName '🚀') = true := by
  have h := C1_fallback_wellformed udName '🚀' (by decide) (by decide)
  exact h.2 "ROCKET" rfl

set_option maxRecDepth 100000 in
/-- C4: on the two-character input U+1F680 U+FE0F the transformer yields
exactly `[ROCKET]` (U+1F680 is not a key of the Substitution Table), and
the output contains no variation selector. -/
theorem C4_rocket_example :
    MAP.all (fun p => !(p.1 == "🚀")) = true ∧
    replace_in_text udName (String.mk ['🚀', '\uFE0F']) = "[ROCKET]" ∧
    "[ROCKET]".data.contains '\uFE0F' = false := by
  decide

set_option maxRecDepth 40000 in
/-- C9 witness: the concrete string "hi" satisfies the pass-through
hypotheses and is indeed a fixed point. -/
theorem C9_witness : replace_in_text udName "hi" = "hi" :=
  C9_passthrough udName "hi" (by decide) (by decide) (by decide)

/-! Classifier and walker claims. -/

/-- C5: the classifier accepts when the lowercased extension is in the
allow list; otherwise rejects when it is in the binary deny list;
otherwise it reads at most 2048 bytes and rejects on a NUL byte in that
prefix or on a read error, accepting in all remaining cases. -/
theorem C5_looks_text_spec (path : String)
    (content : Except Unit (List Nat)) :
    (TEXT_EXTS.contains (lowerExt path) = true →
      looks_text path content = true) ∧
    (TEXT_EXTS.contains (lowerExt path) = false →
      bin_exts.contains (lowerExt path) = true →
      looks_text path content = false) ∧
    (TEXT_EXTS.contains (lowerExt path) = false →
      bin_exts.contains (lowerExt path) = false →
      (∀ e, content = .error e → looks_text path content = false) ∧
      (∀ bs, content = .ok bs →
        looks_text path content = !((bs.take 2048).contains 0))) := by
  refine ⟨?_, ?_, ?_⟩
  · intro h1
    simp only [looks_text]
    rw [h1]
    rfl
  · intro h1 h2
    simp only [looks_text]
    rw [h1, h2]
    rfl
  · intro h1 h2
    constructor
    · intro e he
      subst he
      simp only [looks_text]
      rw [h1, h2]
      rfl
    · intro bs hbs
      subst hbs
      simp only [looks_text]
      rw [h1, h2]
      by_cases h3 : (bs.take 2048).contains 0 = true
      · rw [h3]; rfl
      · rw [Bool.not_eq_true] at h3
        rw [h3]; rfl

/-- C6: an eligible file whose strict-UTF-8 decoding fails is skipped
entirely: the walker state (both counters, the writes, the output) is
exactly what it was before the file was met. -/
theorem C6_decode_error_skips (uname : Char → Option String)
    (s : WalkState) (f : SimFile)
    (he : looks_text (filePath f) f.bytes = true)
    (hd : f.utf8 = none) :
    processFile uname s f = s := by
  simp [processFile, he, hd]

/-- C7: a successfully decoded eligible file is written back exactly when
the transformed text differs from the original: an unchanged file only
bumps the scanned counter, a changed file is rewritten with exactly the
transformed content, bumps both counters, and prints one Rewrote line. -/
theorem C7_write_iff_changed (uname : Char → Option String)
    (s : WalkState) (f : SimFile) (text : String)
    (he : looks_text (filePath f) f.bytes = true)
    (hd : f.utf8 = some text) :
    (replace_in_text uname text = text →
      processFile uname s f = { s with scanned := s.scanned + 1 }) ∧
    (replace_in_text uname text ≠ text →
      processFile uname s f =
        { changed := s.changed + 1, scanned := s.scanned + 1,
          writes := s.writes ++ [(filePath f, replace_in_text uname text)],
          output := s.output ++ ["Rewrote: " ++ filePath f] }) := by
  constructor
  · intro hc
    simp [processFile, he, hd, hc]
  · intro hc
    simp [processFile, he, hd, hc]

theorem filter_visible_erase {fs : List SimFile} {f : SimFile}
    (hv : visible f = false) :
    (fs.filter (fun g => !(decide (g = f)))).filter visible =
      fs.filter visible := by
  induction fs with
  | nil => rfl
  | cons g gs ih =>
    by_cases hgf : g = f
    · subst hgf
      simp [hv, ih]
    · simp [List.filter_cons, hgf, ih]

theorem processFile_writes {uname : Char → Option String} {s : WalkState}
    {f : SimFile} {w : String × String}
    (hw : w ∈ (processFile uname s f).writes) :
    w ∈ s.writes ∨ w.1 = filePath f := by
  by_cases hl : looks_text (filePath f) f.bytes = true
  · cases hu : f.utf8 with
    | none =>
      simp only [processFile, hl, hu, if_true] at hw
      exact Or.inl hw
    | some text =>
      by_cases hnt : replace_in_text uname text = text
      · simp only [processFile, hl, hu, hnt, if_true] at hw
        exact Or.inl hw
      · simp only [processFile, hl, hu, hnt, if_true, if_false] at hw
        rcases List.mem_append.mp hw with h1 | h1
        · exact Or.inl h1
        · right
          have h2 : w = (filePath f, replace_in_text uname text) := by
            simpa using h1
          rw [h2]
  · rw [Bool.not_eq_true] at hl
    simp only [processFile, hl, Bool.false_eq_true, if_false] at hw
    exact Or.inl hw

theorem foldl_writes (uname : Char → Option String) :
    ∀ (l : List SimFile) (s : WalkState) (w : String × String),
      w ∈ (l.foldl (processFile uname) s).writes →
      w ∈ s.writes ∨ ∃ g ∈ l, w.1 = filePath g
  | [], _, _, h => Or.inl h
  | g :: gs, s, w, h => by
    rcases foldl_writes uname gs (processFile uname s g) w h with h1 | h1
    · rcases processFile_writes h1 with h2 | h2
      · exact Or.inl h2
      · exact Or.inr ⟨g, List.mem_cons_self .., h2⟩
    · obtain ⟨g2, hg2, hw2⟩ := h1
      exact Or.inr ⟨g2, List.mem_cons_of_mem _ hg2, hw2⟩

/-- C8: a file below an excluded or dot-prefixed directory is pruned: it
is invisible to the walker, the whole run is identical to the run on the
file list without it, and (when paths are unambiguous) no write ever
touches its path. -/
theorem C8_excluded_dirs_untouched (uname : Char → Option String)
    (fs : List SimFile) (f : SimFile) (_hf : f ∈ fs)
    (hex : ∃ d ∈ f.dirs,
      EXCLUDE_DIRS.contains d = true ∨ dotFirst d = true) :
    visible f = false ∧
    runWalk uname fs =
      runWalk uname (fs.filter (fun g => !(decide (g = f)))) ∧
    ((∀ g ∈ fs, filePath g = filePath f → g = f) →
      ∀ w ∈ (runWalk uname fs).writes, w.1 ≠ filePath f) := by
  have hv : visible f = false := by
    obtain ⟨d, hd, hor⟩ := hex
    unfold visible
    rw [← Bool.not_eq_true, List.all_eq_true]
    intro hall
    have hthis := hall d hd
    rcases hor with h1 | h1 <;> rw [h1] at hthis <;> simp at hthis
  refine ⟨hv, ?_, ?_⟩
  · unfold runWalk
    rw [filter_visible_erase hv]
  · intro hinj w hw
    unfold runWalk at hw
    dsimp only at hw
    rcases foldl_writes uname _ _ w hw with h1 | h1
    · cases h1
    · obtain ⟨g, hg, hwp⟩ := h1
      intro hwf
      have hgf : g = f := hinj g (List.mem_of_mem_filter hg)
        (by rw [← hwp, hwf])
      have hgv : visible g = true := List.of_mem_filter hg
      rw [hgf, hv] at hgv
      exact Bool.noConfusion hgv

/-- C5 witness: a `.png` file is rejected through the deny list. -/
theorem C5_witness : looks_text "a.png" (.ok [1, 2]) = false :=
  (C5_looks_text_spec "a.png" (.ok [1, 2])).2.1 (by decide) (by decide)

/-- C6 witness: an eligible `.md` file that fails to decode leaves the
walker state untouched. -/
theorem C6_witness :
    processFile udName ⟨0, 0, [], []⟩ ⟨[], "a.md", .ok [], none⟩ =
      ⟨0, 0, [], []⟩ :=
  C6_decode_error_skips udName ⟨0, 0, [], []⟩ ⟨[], "a.md", .ok [], none⟩
    (by decide) rfl

set_option maxRecDepth 100000 in
theorem rocket_eval : replace_in_text udName "🚀" = "[ROCKET]" := by
  decide

/-- C7 witness: a decodable `.md` file holding a rocket character is
rewritten with the transformed content, both counters move, and one
Rewrote line is printed. -/
theorem C7_witness :
    processFile udName ⟨0, 0, [], []⟩ ⟨[], "a.md", .ok [], some "🚀"⟩ =
      ⟨1, 1, [("a.md", "[ROCKET]")], ["Rewrote: a.md"]⟩ := by
  have h := (C7_write_iff_changed udName ⟨0, 0, [], []⟩
    ⟨[], "a.md", .ok [], some "🚀"⟩ "🚀" (by decide) rfl).2
    (by rw [rocket_eval]; decide)
  rw [h, rocket_eval]
  rfl

/-- C8 witness: a file inside a directory literally named node_modules is
invisible and its path is never written. -/
theorem C8_witness :
    visible ⟨["node_modules"], "a.md", .ok [], some "x"⟩ = false ∧
    runWalk udName [⟨["node_modules"], "a.md", .ok [], some "x"⟩] =
      runWalk udName
        ([⟨["node_modules"], "a.md", .ok [], some "x"⟩].filter
          (fun g => !(decide
            (g = ⟨["node_modules"], "a.md", .ok [], some "x"⟩)))) ∧
    ((∀ g ∈ [(⟨["node_modules"], "a.md", .ok [], some "x"⟩ : SimFile)],
        filePath g =
          filePath (⟨["node_modules"], "a.md", .ok [], some "x"⟩ : SimFile) →
        g = ⟨["node_modules"], "a.md", .ok [], some "x"⟩) →
      ∀ w ∈ (runWalk udName
          [⟨["node_modules"], "a.md", .ok [], some "x"⟩]).writes,
        w.1 ≠
          filePath (⟨["node_modules"], "a.md", .ok [], some "x"⟩ : SimFile)) :=
  C8_excluded_dirs_untouched udName _ _ (by simp)
    ⟨"node_modules", by simp, Or.inl (by decide)⟩

end ReplaceEmoji
